import Mathlib

/-!
Shallow embedding of pyscf/lo/nao.py (natural atomic orbitals: pre-NAO
eigendecomposition, core/valence/Rydberg classification, NAO assembly,
restoration pass, and the mutable default shell-configuration table).
Machine reals are modelled by exact rationals; external collaborators
(scipy.linalg.eigh, pyscf.lo.orth.lowdin / weight_orth) enter as explicit
function parameters constrained only by their documented contracts.
-/

namespace PyscfNao

/-- The default per-element shell-configuration table `AOSHELL` of nao.py
(lines 23-147): entry `Z` is the pair (core configuration string,
core+valence configuration string) for nuclear charge `Z` (0 = ghost). -/
def AOSHELL : List (String × String) := [
("0s0p0d0f", "0s0p0d0f"),
  ("0s0p0d0f", "1s0p0d0f"),
  ("0s0p0d0f", "1s0p0d0f"),
  ("1s0p0d0f", "2s0p0d0f"),
  ("1s0p0d0f", "2s0p0d0f"),
  ("1s0p0d0f", "2s1p0d0f"),
  ("1s0p0d0f", "2s1p0d0f"),
  ("1s0p0d0f", "2s1p0d0f"),
  ("1s0p0d0f", "2s1p0d0f"),
  ("1s0p0d0f", "2s1p0d0f"),
  ("1s0p0d0f", "2s1p0d0f"),
  ("2s1p0d0f", "3s1p0d0f"),
  ("2s1p0d0f", "3s1p0d0f"),
  ("2s1p0d0f", "3s2p0d0f"),
  ("2s1p0d0f", "3s2p0d0f"),
  ("2s1p0d0f", "3s2p0d0f"),
  ("2s1p0d0f", "3s2p0d0f"),
  ("2s1p0d0f", "3s2p0d0f"),
  ("2s1p0d0f", "3s2p0d0f"),
  ("3s2p0d0f", "4s2p0d0f"),
  ("3s2p0d0f", "4s2p0d0f"),
  ("3s2p0d0f", "4s2p1d0f"),
  ("3s2p0d0f", "4s2p1d0f"),
  ("3s2p0d0f", "4s2p1d0f"),
  ("3s2p0d0f", "4s2p1d0f"),
  ("3s2p0d0f", "4s2p1d0f"),
  ("3s2p0d0f", "4s2p1d0f"),
  ("3s2p0d0f", "4s2p1d0f"),
  ("3s2p0d0f", "4s2p1d0f"),
  ("3s2p0d0f", "4s2p1d0f"),
  ("3s2p0d0f", "4s2p1d0f"),
  ("3s2p1d0f", "4s3p1d0f"),
  ("3s2p1d0f", "4s3p1d0f"),
  ("3s2p1d0f", "4s3p1d0f"),
  ("3s2p1d0f", "4s3p1d0f"),
  ("3s2p1d0f", "4s3p1d0f"),
  ("3s2p1d0f", "4s3p1d0f"),
  ("4s3p1d0f", "5s3p1d0f"),
  ("4s3p1d0f", "5s3p1d0f"),
  ("4s3p1d0f", "5s3p2d0f"),
  ("4s3p1d0f", "5s3p2d0f"),
  ("4s3p1d0f", "5s3p2d0f"),
  ("4s3p1d0f", "5s3p2d0f"),
  ("4s3p1d0f", "5s3p2d0f"),
  ("4s3p1d0f", "5s3p2d0f"),
  ("4s3p1d0f", "5s3p2d0f"),
  ("4s3p1d0f", "4s3p2d0f"),
  ("4s3p1d0f", "5s3p2d0f"),
  ("4s3p1d0f", "5s3p2d0f"),
  ("4s3p2d0f", "5s4p2d0f"),
  ("4s3p2d0f", "5s4p2d0f"),
  ("4s3p2d0f", "5s4p2d0f"),
  ("4s3p2d0f", "5s4p2d0f"),
  ("4s3p2d0f", "5s4p2d0f"),
  ("4s3p2d0f", "5s4p2d0f"),
  ("5s4p2d0f", "6s4p2d0f"),
  ("5s4p2d0f", "6s4p2d0f"),
  ("5s4p2d0f", "6s4p3d0f"),
  ("5s4p2d0f", "6s4p3d1f"),
  ("5s4p2d0f", "6s4p2d1f"),
  ("5s4p2d0f", "6s4p2d1f"),
  ("5s4p2d0f", "6s4p2d1f"),
  ("5s4p2d0f", "6s4p2d1f"),
  ("5s4p2d0f", "6s4p2d1f"),
  ("5s4p2d0f", "6s4p3d1f"),
  ("5s4p2d0f", "6s4p3d1f"),
  ("5s4p2d0f", "6s4p2d1f"),
  ("5s4p2d0f", "6s4p2d1f"),
  ("5s4p2d0f", "6s4p2d1f"),
  ("5s4p2d0f", "6s4p2d1f"),
  ("5s4p2d0f", "6s4p2d1f"),
  ("5s4p2d1f", "6s4p3d1f"),
  ("5s4p2d1f", "6s4p3d1f"),
  ("5s4p2d1f", "6s4p3d1f"),
  ("5s4p2d1f", "6s4p3d1f"),
  ("5s4p2d1f", "6s4p3d1f"),
  ("5s4p2d1f", "6s4p3d1f"),
  ("5s4p2d1f", "6s4p3d1f"),
  ("5s4p2d1f", "6s4p3d1f"),
  ("5s4p2d1f", "6s4p3d1f"),
  ("5s4p2d1f", "6s4p3d1f"),
  ("5s4p3d1f", "6s5p3d1f"),
  ("5s4p3d1f", "6s5p3d1f"),
  ("5s4p3d1f", "6s5p3d1f"),
  ("5s4p3d1f", "6s5p3d1f"),
  ("5s4p3d1f", "6s5p3d1f"),
  ("5s4p3d1f", "6s5p3d1f"),
  ("6s5p3d1f", "7s5p3d1f"),
  ("6s5p3d1f", "7s5p3d1f"),
  ("6s5p3d1f", "7s5p4d1f"),
  ("6s5p3d1f", "7s5p4d1f"),
  ("6s5p3d1f", "7s5p4d2f"),
  ("6s5p3d1f", "7s5p4d2f"),
  ("6s5p3d1f", "7s5p4d2f"),
  ("6s5p3d1f", "7s5p3d2f"),
  ("6s5p3d1f", "7s5p3d2f"),
  ("6s5p3d1f", "7s5p4d2f"),
  ("6s5p3d1f", "7s5p4d2f"),
  ("6s5p3d1f", "7s5p3d2f"),
  ("6s5p3d1f", "7s5p3d2f"),
  ("6s5p3d1f", "7s5p3d2f"),
  ("6s5p3d1f", "7s5p3d2f"),
  ("6s5p3d1f", "7s5p3d2f"),
  ("6s5p3d2f", "7s5p4d2f"),
  ("6s5p3d2f", "7s5p4d2f"),
  ("6s5p3d2f", "7s5p4d2f"),
  ("6s5p3d2f", "7s5p4d2f"),
  ("6s5p3d2f", "7s5p4d2f"),
  ("6s5p3d2f", "7s5p4d2f"),
  ("6s5p3d2f", "7s5p4d2f"),
  ("6s5p3d2f", "7s5p4d2f"),
  ("6s5p3d2f", "7s5p4d2f"),
  ("6s5p3d2f", "7s5p4d2f"),
  ("6s5p4d2f", "7s6p4d2f"),
  ("6s5p4d2f", "7s6p4d2f"),
  ("6s5p4d2f", "7s6p4d2f"),
  ("6s5p4d2f", "7s6p4d2f"),
  ("6s3p4d2f", "7s6p4d2f"),
  ("6s3p4d2f", "7s6p4d2f")]


/-- Value of a decimal digit character (Python `int(c)` for a digit `c`;
on the table strings the even positions are always digits). -/
def digitVal (c : Char) : ℕ := c.toNat - 48

/-- Python `s[::2]`: the characters at the even positions of a list. -/
def everyOther : List Char → List Char
  | [] => []
  | [a] => [a]
  | a :: _ :: rest => a :: everyOther rest

/-- Python `[int(x) for x in conf[::2]]` (nao.py lines 262-263, 322-323):
the four shell counts encoded at the even positions of a configuration
string such as ("3s2p0d0f"). -/
def shellCounts (conf : String) : List ℕ :=
  (everyOther conf.toList).map digitVal

/-- Python substring test `sub in s` on character lists. -/
def hasSubstr (sub : List Char) : List Char → Bool
  | [] => sub.isEmpty
  | c :: rest => sub.isPrefixOf (c :: rest) || hasSubstr sub rest

/-- Python `desc.replace(' ','').replace('-','').replace('_','').lower()`
(nao.py line 306). -/
def pyClean (s : String) : List Char :=
  (s.toList.filter (fun c => !(c == ' ' || c == '-' || c == '_'))).map Char.toLower

/-- The helper `to_conf` inside `set_atom_conf` (nao.py lines 305-316),
acting on a raw description string, with `cv` the element's current
core+valence configuration string (`AOSHELL[charge][1]`).  Python `find`
returns -1 when '0' is absent, so the position indexed afterwards is
`loc+1`; `none` models the IndexError Python would raise if that position
fell outside the string. -/
def toConf (cv : List Char) (rawDesc : String) : Option (List Char) :=
  let desc := pyClean rawDesc
  if hasSubstr ("doublep".toList) desc then some ("2p".toList)
  else if hasSubstr ("doubled".toList) desc then some ("2d".toList)
  else if hasSubstr ("doublef".toList) desc then some ("2f".toList)
  else if hasSubstr ("polarize".toList) desc then
    let loc : Int := match cv.findIdx? (fun c => c == '0') with
      | some i => (i : Int)
      | none => -1
    match cv.get? (loc + 1).toNat with
    | some c => some ['1', c]
    | none => none
  else some desc

/-- Python `int(desc.split(ch)[0][-1])` (nao.py lines 326, 328): the digit
just before the first occurrence of `ch`; `none` models the exceptions
Python raises when the part before `ch` is empty or ends in a non-digit. -/
def countBefore (desc : List Char) (ch : Char) : Option ℕ :=
  match (desc.takeWhile (fun c => c != ch)).getLast? with
  | some c => if c.isDigit then some (digitVal c) else none
  | none => none

/-- One iteration of the channel-update loop of `set_atom_conf`
(nao.py lines 324-328) for channel `i` with letter `ch`; note that the
core+valence count uses the core count updated in the same iteration. -/
def updChannel (cDesc vDesc : List Char) (st : List ℕ × List ℕ) (i : ℕ) (ch : Char) :
    Option (List ℕ × List ℕ) := do
  let ncore ← if cDesc.contains ch then
      match countBefore cDesc ch with
      | some d => some (st.1.set i d)
      | none => none
    else some st.1
  let ncv ← if vDesc.contains ch then
      match countBefore vDesc ch with
      | some d => some (st.2.set i (ncore.getD i 0 + d))
      | none => none
    else some st.2
  some (ncore, ncv)

/-- Python `'%ds%dp%dd%df' % tuple(ns)` (nao.py lines 329-330). -/
def fmtConf (ns : List ℕ) : String :=
  toString (ns.getD 0 0) ++ "s" ++ toString (ns.getD 1 0) ++ "p" ++
  toString (ns.getD 2 0) ++ "d" ++ toString (ns.getD 3 0) ++ "f"

/-- `set_atom_conf` (nao.py lines 288-333) acting explicitly on a table.
`charge` is the nuclear charge `mole._charge(element)` resolves to
(26 for Fe).  The description is either one string (core kept, valence
described) or a pair (core description, valence description); the updated
table is returned, `none` where Python would raise. -/
def set_atom_conf (table : List (String × String)) (charge : ℕ)
    (description : String ⊕ (String × String)) : Option (List (String × String)) := do
  let entry ← table.get? charge
  let cv := entry.2.toList
  let dpair ← match description with
    | Sum.inl d => do
        let v ← toConf cv d
        some (entry.1.toList, v)
    | Sum.inr pr => do
        let cd ← toConf cv pr.1
        let vd ← toConf cv pr.2
        some (cd, vd)
  let st0 : List ℕ × List ℕ := (shellCounts entry.1, shellCounts entry.2)
  let st ← [((0 : ℕ), 's'), (1, 'p'), (2, 'd'), (3, 'f')].foldlM
      (fun st ic => updChannel dpair.1 dpair.2 st ic.1 ic.2) st0
  some (table.set charge (fmtConf st.1, fmtConf st.2))


/-! ### Matrices

Dense real matrices are embedded as total functions with explicit
dimension arguments on the operations; a product truncates the inner sum
to the stated inner dimension.  Entries are exact rationals (the code's
floating-point arithmetic in exact form). -/

/-- Entry type of a dense real matrix. -/
def Mat : Type := ℕ → ℕ → ℚ

/-- Transpose (`A.T`; `conj().T` coincides with it in the real case). -/
def vTr (A : Mat) : Mat := fun i j => A j i

/-- Product of an `?×n` by an `n×?` matrix (`numpy.dot` / `lib.dot`). -/
def mmul (n : ℕ) (A B : Mat) : Mat :=
  fun i j => ∑ t ∈ Finset.range n, A i t * B t j

/-- The `n×n` identity (`numpy.eye(n)`), zero outside the first `n`. -/
def idm (n : ℕ) : Mat := fun i j => if i = j ∧ i < n then 1 else 0

/-- Fancy column indexing `A[:, lst]` (a fresh `?×len(lst)` matrix). -/
def cols (A : Mat) (lst : List ℕ) : Mat := fun i j => A i (lst.getD j 0)

/-- Column assignment `A[:, lst] = B` for a list of distinct columns. -/
def setCols (A : Mat) (lst : List ℕ) (B : Mat) : Mat :=
  fun i j => if j ∈ lst then B i (lst.indexOf j) else A i j

/-- Entrywise difference (`numpy` `-` / the effect of `-=`). -/
def msub (A B : Mat) : Mat := fun i j => A i j - B i j

/-! ### Molecule metadata (external BasisMetadata, nao.py's view of `mol`)

Shells are grouped by owning atom in declaration order, as `mole`
guarantees; each shell carries its angular momentum `l` and contraction
count `nc`, and occupies `nc * degen` consecutive basis functions. -/

/-- One atom of the molecule: nuclear charge (`mole._charge(symbol)`),
ECP-replaced core electron count (`mol.atom_nelec_core`), and its shells
as (angular momentum, contraction count) in declaration order. -/
structure AtomData where
  nuc : ℕ
  nelecCore : ℕ
  shells : List (ℕ × ℕ)

/-- Molecule metadata: Cartesian-vs-spherical flag and atoms in order. -/
structure MolData where
  cart : Bool
  atoms : List AtomData

/-- Number of angular components of one shell of angular momentum `l`
(nao.py lines 194-197 and 264-267). -/
def degenOf (cart : Bool) (l : ℕ) : ℕ :=
  if cart then (l + 1) * (l + 2) / 2 else 2 * l + 1

/-- Number of basis functions of one shell: `nc * degen`. -/
def shellDim (cart : Bool) (sh : ℕ × ℕ) : ℕ := sh.2 * degenOf cart sh.1

/-- Basis functions owned by one atom. -/
def atomDim (cart : Bool) (shells : List (ℕ × ℕ)) : ℕ :=
  (shells.map (shellDim cart)).sum

/-- Total number of basis functions, `mol.nao_nr()` (= `ao_loc[-1]`). -/
def naoNr (m : MolData) : ℕ :=
  (m.atoms.map (fun a => atomDim m.cart a.shells)).sum

/-! ### ShellClassifier: `_core_val_ryd_list` (nao.py lines 246-279)

The ECP rule `core_configuration` lives in pyscf/gto/ecp.py, outside the
sources at hand; per the spec it is a pure function from the ECP-replaced
electron count to per-`l` shell counts, so it is taken as a parameter
`ecpCore` and every result below holds for all such functions. -/

/-- State of the classification loop: the per-(atom, l) shell counter
`count`, the running basis-function offset `k`, and the three lists. -/
structure CVRState where
  count : ℕ → ℕ → ℕ
  k : ℕ
  core : List ℕ
  val : List ℕ
  ryd : List ℕ

/-- Classification of one contracted function `n` of a shell
(nao.py lines 268-277): `l > 3` is Rydberg, otherwise core, valence or
Rydberg by comparison with the element's shell counts; either way the
`deg` basis functions `k..k+deg-1` go to exactly one list. -/
def classifyOne (coreshell cvshell ecpl l deg cnt : ℕ) (st : CVRState) (n : ℕ) : CVRState :=
  if 3 < l then
    { st with ryd := st.ryd ++ List.range' st.k deg, k := st.k + deg }
  else if ecpl + cnt + n < coreshell then
    { st with core := st.core ++ List.range' st.k deg, k := st.k + deg }
  else if ecpl + cnt + n < cvshell then
    { st with val := st.val ++ List.range' st.k deg, k := st.k + deg }
  else
    { st with ryd := st.ryd ++ List.range' st.k deg, k := st.k + deg }

/-- Classification of one shell (nao.py loop body, lines 253-278): the
shell counter is read once before the contracted loop (the loop body
never changes it) and advanced by `nc` afterwards. -/
def classifyShell (ecpCore : ℕ → List ℕ) (cart : Bool) (ia : ℕ) (a : AtomData)
    (st : CVRState) (sh : ℕ × ℕ) : CVRState :=
  let l := sh.1
  let nc := sh.2
  let ecpl := (ecpCore a.nelecCore).getD l 0
  let coreshell := (shellCounts (AOSHELL.getD a.nuc ("", "")).1).getD l 0
  let cvshell := (shellCounts (AOSHELL.getD a.nuc ("", "")).2).getD l 0
  let deg := degenOf cart l
  let cnt := st.count ia l
  let st2 := (List.range nc).foldl (classifyOne coreshell cvshell ecpl l deg cnt) st
  { st2 with count := fun a2 l2 => if a2 = ia ∧ l2 = l then st2.count a2 l2 + nc else st2.count a2 l2 }

/-- Initial classifier state (`count = zeros`, `k = 0`, empty lists). -/
def cvrInit : CVRState := ⟨fun _ _ => 0, 0, [], [], []⟩

/-- `_core_val_ryd_list(mol)` (nao.py lines 246-279): classify every shell
of every atom in declaration order. -/
def coreValRydList (ecpCore : ℕ → List ℕ) (m : MolData) : CVRState :=
  m.atoms.enum.foldl
    (fun st x => x.2.shells.foldl (classifyShell ecpCore m.cart x.1 x.2) st) cvrInit

/-- Loop invariant of the classifier: the three lists are strictly
increasing and together form a permutation of `0..k-1`. -/
def cvrOk (st : CVRState) : Prop :=
  st.core.Sorted (· < ·) ∧ st.val.Sorted (· < ·) ∧ st.ryd.Sorted (· < ·) ∧
  (st.core ++ st.val ++ st.ryd).Perm (List.range st.k)

/-! ### BlockAverager: `_spheric_average_mat` (nao.py lines 281-286) -/

/-- `_spheric_average_mat(mat, l, lst, degen)`: take the submatrix
`mat[lst][:,lst]`, reshape it row-major to `(nd, degen, nd, degen)`  --
so tensor entry `(i, m, j, n)` is submatrix entry
`(i*degen+m, j*degen+n)` -- sum out the two component axes (`einsum
'imjn->ij'`) and divide by `degen`; `degen` defaults to `2l+1`. -/
def sphericAverageMat (mat : Mat) (l : ℕ) (lst : List ℕ) (degen? : Option ℕ) : Mat :=
  let degen := match degen? with
    | some d => d
    | none => 2 * l + 1
  let sub : Mat := fun a b => mat (lst.getD a 0) (lst.getD b 0)
  fun i j =>
    (∑ mm ∈ Finset.range degen, ∑ nn ∈ Finset.range degen,
      sub (i * degen + mm) (j * degen + nn)) / (degen : ℚ)

/-- The spec's description of the BlockAverager, written from its words
(spec 4.1): average the submatrix `M[lst,lst]` over the `degen` magnetic
components: entry `(i,j)` is the mean over components `(m,n)` of
`M[lst[i*degen+m], lst[j*degen+n]]`. -/
def sphericAverageSpec (mat : Mat) (lst : List ℕ) (degen : ℕ) : Mat :=
  fun i j =>
    (∑ mm ∈ Finset.range degen, ∑ nn ∈ Finset.range degen,
      mat (lst.getD (i * degen + mm) 0) (lst.getD (j * degen + nn) 0)) / (degen : ℚ)


/-! ### PreNaoSolver: `_prenao_sub` (nao.py lines 177-210)

`scipy.linalg.eigh(p_frag, s_frag)` is an external collaborator; it is a
parameter `eighF` taking the two averaged blocks and their dimension `nd`
and returning the eigenvalue list (documented contract: ascending order)
and the eigenvector matrix (eigenvectors as columns). -/

/-- Vectorized assignment `occ[ilst] = e` for a list of distinct indices. -/
def vecAssign (occ : ℕ → ℚ) (ilst : List ℕ) (e : List ℚ) : ℕ → ℚ :=
  fun t => if t ∈ ilst then e.getD (ilst.indexOf t) 0 else occ t

/-- Row assignment `cao[i0, ilst] = row` for distinct column indices. -/
def rowAssign (cao : Mat) (i0 : ℕ) (ilst : List ℕ) (row : ℕ → ℚ) : Mat :=
  fun a b => if a = i0 ∧ b ∈ ilst then row (ilst.indexOf b) else cao a b

/-- Column `k` of `idx.reshape(-1, degen)` (nao.py line 204-206): the
indices `idx[i*degen + k]` for the `nd = len(idx) // degen` radial rows. -/
def ilstOf (degen : ℕ) (idx : List ℕ) (k : ℕ) : List ℕ :=
  (List.range (idx.length / degen)).map (fun i => idx.getD (i * degen + k) 0)

/-- The write-back loop of `_prenao_sub` (nao.py lines 204-209): with
`idx` reshaped row-major to `(nd, degen)`, component `k` uses the column
`ilst = idx[:,k]`, writes the (already reversed) eigenvalues into
`occ[ilst]` and row `i` of the (already reversed) eigenvector matrix into
`cao[ilst[i], ilst]`. -/
def blockWrite (degen : ℕ) (idx : List ℕ) (erev : List ℚ) (vrev : Mat)
    (oc : (ℕ → ℚ) × Mat) : (ℕ → ℚ) × Mat :=
  (List.range degen).foldl
    (fun oc k =>
      let ilst := ilstOf degen idx k
      let occ2 := vecAssign oc.1 ilst erev
      let cao2 := (List.range ilst.length).foldl
        (fun c i => rowAssign c (ilst.getD i 0) ilst (fun j => vrev i j)) oc.2
      (occ2, cao2)) oc

/-- The eigensolver call of one (atom, l) block (nao.py lines 198-200):
`scipy.linalg.eigh(p_frag, s_frag)` on the two averaged blocks, with the
block dimension passed along. -/
def eighAt (eighF : Mat → Mat → ℕ → List ℚ × Mat) (cart : Bool)
    (p s : Mat) (l : ℕ) (idx : List ℕ) : List ℚ × Mat :=
  eighF (sphericAverageMat p l idx (some (degenOf cart l)))
    (sphericAverageMat s l idx (some (degenOf cart l)))
    (idx.length / degenOf cart l)

/-- One (atom, l) block of `_prenao_sub` (nao.py lines 194-209): average
the `p` and `s` blocks, call the eigensolver, reverse the eigenvalue
order and the eigenvector columns (`e[::-1]`, `v[:,::-1]`), then write. -/
def prenaoBlock (eighF : Mat → Mat → ℕ → List ℚ × Mat) (cart : Bool)
    (p s : Mat) (l : ℕ) (idx : List ℕ) (oc : (ℕ → ℚ) × Mat) : (ℕ → ℚ) × Mat :=
  let degen := degenOf cart l
  let nd := idx.length / degen
  let ev := eighAt eighF cart p s l idx
  let erev := ev.1.reverse
  let vrev : Mat := fun i j => ev.2 i (nd - 1 - j)
  blockWrite degen idx erev vrev oc

/-- The per-shell AO index ranges of one atom restricted to angular
momentum `l` (nao.py lines 187-189): `arange(ao_loc[b0+ib],
ao_loc[b0+ib+1])` for each shell `ib` of the atom with `bas_ang == l`,
with `off` the atom's first AO index. -/
def idxRanges (cart : Bool) (off : ℕ) (shells : List (ℕ × ℕ)) (l : ℕ) : List (List ℕ) :=
  match shells with
  | [] => []
  | sh :: rest =>
    let d := shellDim cart sh
    (if sh.1 = l then [List.range' off d] else []) ++ idxRanges cart (off + d) rest l

/-- `numpy.hstack` on a list of index arrays (nao.py line 190): raises
`ValueError` ("need at least one array to concatenate") on an empty list,
modelled by `none`; otherwise concatenates. -/
def hstackQ (ls : List (List ℕ)) : Option (List ℕ) :=
  match ls with
  | [] => none
  | _ => some ls.flatten

/-- One value of `l` inside `_prenao_sub`'s atom loop (nao.py lines
186-209): collect the indices, `hstack` them (the error path), skip when
fewer than one index (line 191; unreachable for an empty collection since
`hstack` has already raised), else process the block. -/
def prenaoL (eighF : Mat → Mat → ℕ → List ℚ × Mat) (cart : Bool) (p s : Mat)
    (off : ℕ) (shells : List (ℕ × ℕ)) (oc : (ℕ → ℚ) × Mat) (l : ℕ) :
    Option ((ℕ → ℚ) × Mat) :=
  match hstackQ (idxRanges cart off shells l) with
  | none => none
  | some idx =>
    if idx.length < 1 then some oc
    else some (prenaoBlock eighF cart p s l idx oc)

/-- `bas_ang[b0:b1].max()` for one atom (nao.py line 185); `numpy.max` of
an empty slice raises, an atom with no shells is treated as caller error
and given maximum 0 here (no claim touches it). -/
def lMaxOf (shells : List (ℕ × ℕ)) : ℕ := (shells.map Prod.fst).foldl max 0

/-- The `l` loop of `_prenao_sub` for one atom (nao.py lines 185-209). -/
def prenaoAtom (eighF : Mat → Mat → ℕ → List ℚ × Mat) (cart : Bool) (p s : Mat)
    (off : ℕ) (shells : List (ℕ × ℕ)) (oc : (ℕ → ℚ) × Mat) :
    Option ((ℕ → ℚ) × Mat) :=
  (List.range (lMaxOf shells + 1)).foldlM (prenaoL eighF cart p s off shells) oc

/-- The atom loop of `_prenao_sub` (nao.py line 184), threading each
atom's first AO index (`aoslice_by_atom`'s `p0`). -/
def prenaoGo (eighF : Mat → Mat → ℕ → List ℚ × Mat) (cart : Bool) (p s : Mat) :
    ℕ → List AtomData → (ℕ → ℚ) × Mat → Option ((ℕ → ℚ) × Mat)
  | _, [], oc => some oc
  | off, a :: rest, oc =>
    match prenaoAtom eighF cart p s off a.shells oc with
    | none => none
    | some oc2 => prenaoGo eighF cart p s (off + atomDim cart a.shells) rest oc2

/-- `_prenao_sub(mol, p, s)` (nao.py lines 177-210): `occ = zeros(nao)`,
`cao = zeros((nao, nao))`, then process every (atom, l) block; the result
is the pair `(occ, cao)`, `none` where Python raises. -/
def prenaoSub (eighF : Mat → Mat → ℕ → List ℚ × Mat) (m : MolData) (p s : Mat) :
    Option ((ℕ → ℚ) × Mat) :=
  prenaoGo eighF m.cart p s 0 m.atoms (fun _ => 0, fun _ _ => 0)

/-! ### NaoAssembler: `_nao_sub` (nao.py lines 212-244)

`orth.lowdin` and `orth.weight_orth` live in pyscf/lo/orth.py, outside the
sources at hand; they are parameters `lowdinF` (Gram matrix and its
dimension to orthogonalizing factor) and `weightOrthF` (Gram matrix,
column weights, dimension). -/

/-- The assembly part of `_nao_sub` (nao.py lines 215-240): classify,
Lowdin-orthogonalize the core columns, deflate and weight-orthogonalize
the valence columns, deflate against core+valence and
Lowdin-orthogonalize the Rydberg columns.  `cnao` starts as
`numpy.empty`, modelled as zeros: the classifier assigns every column
exactly once.  The `astype` copy is the identity over exact rationals. -/
def naoAssemble (lowdinF : Mat → ℕ → Mat) (weightOrthF : Mat → (ℕ → ℚ) → ℕ → Mat)
    (ecpCore : ℕ → List ℕ) (m : MolData) (preOcc : ℕ → ℚ) (preNao s : Mat) : Mat :=
  let r := coreValRydList ecpCore m
  let nbf := naoNr m
  let cnao0 : Mat := fun _ _ => 0
  let br :=
    if r.core ≠ [] then
      let c := cols preNao r.core
      let nc := r.core.length
      let s1 := mmul nbf (mmul nbf (vTr c) s) c
      let c1 := mmul nc c (lowdinF s1 nc)
      let cnao1 := setCols cnao0 r.core c1
      let cv := cols preNao r.val
      (cnao1, msub cv (mmul nbf (mmul nbf (mmul nc c1 (vTr c1)) s) cv))
    else
      (cnao0, cols preNao r.val)
  let cnao2 :=
    if r.val ≠ [] then
      let s1 := mmul nbf (mmul nbf (vTr br.2) s) br.2
      let wt : ℕ → ℚ := fun j => preOcc (r.val.getD j 0)
      setCols br.1 r.val (mmul r.val.length br.2 (weightOrthF s1 wt r.val.length))
    else br.1
  if r.ryd ≠ [] then
    let cvl := r.core ++ r.val
    let c1 := cols cnao2 cvl
    let c0 := cols preNao r.ryd
    let c2 := msub c0 (mmul nbf (mmul nbf (mmul cvl.length c1 (vTr c1)) s) c0)
    let s1 := mmul nbf (mmul nbf (vTr c2) s) c2
    setCols cnao2 r.ryd (mmul r.ryd.length c2 (lowdinF s1 r.ryd.length))
  else cnao2

/-- Squared Frobenius norm of `cnao.T * s * cnao - eye(nbf)` (nao.py line
241).  `numpy.linalg.norm` is the Frobenius norm, i.e. the square root of
this quantity; since both sides are nonnegative,
`norm > 1e-9  iff  residSq > 1e-18`, which keeps the comparison exact
over the rationals. -/
def residSq (nbf : ℕ) (s cnao : Mat) : ℚ :=
  ∑ i ∈ Finset.range nbf, ∑ j ∈ Finset.range nbf,
    (mmul nbf (mmul nbf (vTr cnao) s) cnao i j - idm nbf i j) ^ 2

/-- `_nao_sub` (nao.py lines 212-244): assemble the coefficient matrix,
compute the orthogonality residual and the warning condition
`snorm > 1e-9` (line 242; `logger.warn` is non-fatal), and return the
matrix together with the warning flag. -/
def naoSub (lowdinF : Mat → ℕ → Mat) (weightOrthF : Mat → (ℕ → ℚ) → ℕ → Mat)
    (ecpCore : ℕ → List ℕ) (m : MolData) (preOcc : ℕ → ℚ) (preNao s : Mat) :
    Mat × Bool :=
  let cnao := naoAssemble lowdinF weightOrthF ecpCore m preOcc preNao s
  (cnao, decide (residSq (naoNr m) s cnao > 1 / 10 ^ 18))

/-! ### Restoration pass of `nao` (nao.py lines 169-173) -/

/-- The `restore` branch of `nao` (nao.py lines 169-173): project the
density into the NAO basis (`p_nao = cnao.T * p * cnao`), take the
identity as its overlap, re-run `_prenao_sub` and right-multiply `cnao`
by the resulting rotation. -/
def naoRestore (eighF : Mat → Mat → ℕ → List ℚ × Mat) (m : MolData)
    (p cnao : Mat) : Option Mat :=
  let n := naoNr m
  let pnao := mmul n (mmul n (vTr cnao) p) cnao
  let snao := idm n
  (prenaoSub eighF m pnao snao).map (fun oc => mmul n cnao oc.2)


/-! ### Heap model of `_nao_sub` (nao.py lines 212-244)

A frame-effect model: numpy arrays live in a heap (a list of cells),
`.copy()`, `astype` and fancy indexing allocate fresh cells, `-=` and
column assignment write in place to the cell they are applied to.  The
numerical payload is an arbitrary type `V`; the pure array computations
enter as opaque parameters, since only the write pattern matters. -/

/-- Allocate a fresh cell holding `v`; returns the new heap and the id. -/
def halloc {V : Type} (h : List V) (v : V) : List V × ℕ := (h ++ [v], h.length)

/-- Write `v` into cell `i` in place. -/
def hput {V : Type} (h : List V) (i : ℕ) (v : V) : List V := h.set i v

/-- Core branch of the heap-level `_nao_sub` (nao.py lines 220-227).
When `core_lst` is nonempty: `c = pre_nao[:,core_lst].copy()` (fresh),
`s1 = c.T*s*c` (pure), `c1 = dot(c, lowdin(s1))` (fresh),
`cnao[:,core_lst] = c1` (in-place on the `cnao` cell),
`c = pre_nao[:,val_lst].copy()` (fresh) and `c -= c1*c1.T*s*c`
(in-place on that fresh cell); otherwise `c = pre_nao[:,val_lst]`
(fancy indexing, also a fresh array).  Returns the heap and the cell
holding `c`. -/
def naoHeapCoreStage {V : Type} (pickF : V → List ℕ → V) (gramF : V → V → V)
    (lowdinF : V → V) (dotF : V → V → V) (deflateF : V → V → V → V)
    (setColsF : V → List ℕ → V → V) (dflt : V) (coreL valL : List ℕ)
    (sV : V) (iNao2 iCnao : ℕ) (h : List V) : List V × ℕ :=
  if coreL ≠ [] then
    let a3 := halloc h (pickF (h.getD iNao2 dflt) coreL)
    let s1 := gramF (a3.1.getD a3.2 dflt) sV
    let a4 := halloc a3.1 (dotF (a3.1.getD a3.2 dflt) (lowdinF s1))
    let h5 := hput a4.1 iCnao (setColsF (a4.1.getD iCnao dflt) coreL (a4.1.getD a4.2 dflt))
    let a6 := halloc h5 (pickF (h5.getD iNao2 dflt) valL)
    let h7 := hput a6.1 a6.2 (deflateF (a6.1.getD a6.2 dflt) (a6.1.getD a4.2 dflt) sV)
    (h7, a6.2)
  else
    halloc h (pickF (h.getD iNao2 dflt) valL)

/-- Valence branch of the heap-level `_nao_sub` (nao.py lines 229-232):
when `val_lst` is nonempty, `wt = pre_occ[val_lst]` (pure read) and
`cnao[:,val_lst] = dot(c, weight_orth(s1, wt))` (in-place on `cnao`). -/
def naoHeapValStage {V : Type} (pickF : V → List ℕ → V) (gramF : V → V → V)
    (dotF : V → V → V) (setColsF : V → List ℕ → V → V) (weightedF : V → V → V)
    (dflt : V) (valL : List ℕ) (sV : V) (iOcc iCnao : ℕ) (br : List V × ℕ) : List V :=
  if valL ≠ [] then
    let s1 := gramF (br.1.getD br.2 dflt) sV
    let wtv := pickF (br.1.getD iOcc dflt) valL
    hput br.1 iCnao
      (setColsF (br.1.getD iCnao dflt) valL (dotF (br.1.getD br.2 dflt) (weightedF s1 wtv)))
  else br.1

/-- Rydberg branch of the heap-level `_nao_sub` (nao.py lines 234-240):
when `rydbg_lst` is nonempty, `c1 = cnao[:,cvlst].copy()` (fresh),
`c = pre_nao[:,rydbg_lst].copy()` (fresh), `c -= c1*c1.T*s*c` (in-place
on that fresh cell) and `cnao[:,rydbg_lst] = dot(c, lowdin(s1))`
(in-place on `cnao`). -/
def naoHeapRydStage {V : Type} (pickF : V → List ℕ → V) (gramF : V → V → V)
    (lowdinF : V → V) (dotF : V → V → V) (deflateF : V → V → V → V)
    (setColsF : V → List ℕ → V → V) (dflt : V) (coreL valL rydL : List ℕ)
    (sV : V) (iNao2 iCnao : ℕ) (h : List V) : List V :=
  if rydL ≠ [] then
    let b1 := halloc h (pickF (h.getD iCnao dflt) (coreL ++ valL))
    let b2 := halloc b1.1 (pickF (b1.1.getD iNao2 dflt) rydL)
    let hA := hput b2.1 b2.2 (deflateF (b2.1.getD b2.2 dflt) (b2.1.getD b1.2 dflt) sV)
    let s1 := gramF (hA.getD b2.2 dflt) sV
    hput hA iCnao (setColsF (hA.getD iCnao dflt) rydL (dotF (hA.getD b2.2 dflt) (lowdinF s1)))
  else h

/-- `_nao_sub` as heap operations (nao.py lines 212-244).  The abstract
pure operations: `astypeF` (dtype-cast copy, line 217), `emptyF`
(`numpy.empty`, line 218), `pickF` (fancy indexing of columns or of an
occupation vector), `gramF c s` (`c.conj().T * s * c`), `lowdinF`,
`dotF`, `deflateF c c1 s` (the value `c - c1 * c1.conj().T * s * c`
stored by `-=`), `setColsF` (the value of `cnao` after a column
assignment), `weightedF s1 wt` (`weight_orth`).  `iOcc`, `iNao`, `iS`
are the caller's cells holding `pre_occ`, `pre_nao`, `s`; the result is
the final heap and the id of the `cnao` cell. -/
def naoSubHeap {V : Type} (astypeF : V → V) (emptyF : ℕ → V)
    (pickF : V → List ℕ → V) (gramF : V → V → V) (lowdinF : V → V)
    (dotF : V → V → V) (deflateF : V → V → V → V)
    (setColsF : V → List ℕ → V → V) (weightedF : V → V → V) (dflt : V)
    (coreL valL rydL : List ℕ) (nbf : ℕ)
    (h0 : List V) (iOcc iNao iS : ℕ) : List V × ℕ :=
  let sV := h0.getD iS dflt
  let a1 := halloc h0 (astypeF (h0.getD iNao dflt))
  let a2 := halloc a1.1 (emptyF nbf)
  let br := naoHeapCoreStage pickF gramF lowdinF dotF deflateF setColsF dflt
    coreL valL sV a1.2 a2.2 a2.1
  let h8 := naoHeapValStage pickF gramF dotF setColsF weightedF dflt
    valL sV iOcc a2.2 br
  let h9 := naoHeapRydStage pickF gramF lowdinF dotF deflateF setColsF dflt
    coreL valL rydL sV a1.2 a2.2 h8
  (h9, a2.2)

/-! ### Decidable checks and concrete instances used by the claims -/

/-- Decidable check behind the (amended) polarize claim: with `i0` the
first channel (s,p,d,f order) whose core+valence count is zero,
`set_atom_conf(z, 'polarize')` returns the table with exactly entry `z`
rewritten, its core string unchanged and its core+valence counts raised
by one exactly at channel `i0`. -/
def polarizeCheck (z : ℕ) : Bool :=
  let e := AOSHELL.getD z ("", "")
  let old := shellCounts e.2
  match old.findIdx? (fun c => c == 0) with
  | some i0 =>
    match set_atom_conf AOSHELL z (Sum.inl ("polarize")) with
    | some t =>
      let e2 := t.getD z ("", "")
      (e2.1 == e.1) && (shellCounts e2.2 == old.set i0 (old.getD i0 0 + 1)) &&
      (t == AOSHELL.set z e2)
    | none => false
  | none => false

/-- Decidable check behind claim C9: `set_atom_conf(z, 'polarize')`
rewrites entry `z` with both shell-count rows numerically unchanged. -/
def polarizeNoopCheck (z : ℕ) : Bool :=
  let e := AOSHELL.getD z ("", "")
  match set_atom_conf AOSHELL z (Sum.inl ("polarize")) with
  | some t =>
    let e2 := t.getD z ("", "")
    (shellCounts e2.1 == shellCounts e.1) && (shellCounts e2.2 == shellCounts e.2) &&
    (t == AOSHELL.set z e2)
  | none => false

/-- A molecule whose single atom carries an s shell and a d shell but no
p shell: the `l = 1` iteration of `_prenao_sub`'s angular-momentum loop
collects no indices. -/
def molGap : MolData := ⟨false, [⟨8, 0, [(0, 1), (2, 1)]⟩]⟩

/-- A molecule with one atom and one s shell with two contractions: two
basis functions, one (atom, l) block of dimension 2. -/
def molTwoS : MolData := ⟨false, [⟨1, 0, [(0, 2)]⟩]⟩

/-- A molecule with one atom and a single 1-contraction s shell. -/
def molOneS : MolData := ⟨false, [⟨1, 0, [(0, 1)]⟩]⟩

/-- Eigenvector matrix diag(-1, 1): a legitimate orthonormal eigenbasis
of diag(1, 2) with the unit overlap (eigenvector signs are solver's
choice). -/
def vCx : Mat := fun i j =>
  if i = 0 ∧ j = 0 then -1 else if i = 1 ∧ j = 1 then 1 else 0

/-- An eigensolver instance: eigenvalues [1, 2] (ascending, per the
scipy.linalg.eigh contract) with eigenvectors `vCx`; exact for the block
diag(1, 2) with unit overlap that it is applied to below. -/
def eighCx : Mat → Mat → ℕ → List ℚ × Mat := fun _ _ _ => ([1, 2], vCx)

/-- The coefficient matrix diag(1, 2) (not orthonormal under `idm 2`). -/
def cCx : Mat := fun i j =>
  if i = 0 ∧ j = 0 then 1 else if i = 1 ∧ j = 1 then 2 else 0

/-- The density matrix diag(1, 1/2), chosen so that
`cCx.T * pCx * cCx = diag(1, 2)`. -/
def pCx : Mat := fun i j =>
  if i = 0 ∧ j = 0 then 1 else if i = 1 ∧ j = 1 then (1 : ℚ) / 2 else 0

/-- diag(1, 2) as a matrix (the eigenvalue matrix of the block). -/
def dCx : Mat := fun i j =>
  if i = 0 ∧ j = 0 then 1 else if i = 1 ∧ j = 1 then 2 else 0

/-- The NAO-basis density `p_nao = cnao.T * p * cnao` of nao.py line 171. -/
def pnaoOf (m : MolData) (p cnao : Mat) : Mat :=
  mmul (naoNr m) (mmul (naoNr m) (vTr cnao) p) cnao

/-- The rotation produced by the restoration pass (the `cao` returned by
`_prenao_sub(mol, p_nao, s_nao)` on nao.py line 173), read out of the
optional result. -/
def restR (eighF : Mat → Mat → ℕ → List ℚ × Mat) (m : MolData) (p cnao : Mat) : Mat :=
  ((prenaoSub eighF m (pnaoOf m p cnao) (idm (naoNr m))).getD (fun _ => 0, fun _ _ => 0)).2

/-- The restored coefficient matrix (nao.py line 173), read out of the
optional result. -/
def restC (eighF : Mat → Mat → ℕ → List ℚ × Mat) (m : MolData) (p cnao : Mat) : Mat :=
  (naoRestore eighF m p cnao).getD (fun _ _ => 0)

/-- Equality of two matrices on their leading 2x2 entries, decidably. -/
def matEq2 (A B : Mat) : Bool :=
  (List.range 2).all fun i => (List.range 2).all fun j => A i j == B i j

/-- A trivial eigensolver for 1-dimensional blocks (eigenvalue list [1],
eigenvector 1), used to instantiate hypotheses at a concrete input. -/
def eighOne : Mat → Mat → ℕ → List ℚ × Mat := fun _ _ _ => ([1], fun _ _ => 1)


/-! ## Claim theorems -/

/-- C1: for every input, `_nao_sub` returns the assembled coefficient
matrix unconditionally -- also when the orthogonality residual exceeds
1e-9 -- and its warning flag is set exactly when the squared Frobenius
residual of `cnao.T*s*cnao - I` exceeds (1e-9)^2; the function is total,
so weak orthogonality never raises. -/
theorem nao_sub_returns_and_warns_iff
    (lowdinF : Mat → ℕ → Mat) (weightOrthF : Mat → (ℕ → ℚ) → ℕ → Mat)
    (ecpCore : ℕ → List ℕ) (m : MolData) (preOcc : ℕ → ℚ) (preNao s : Mat) :
    (naoSub lowdinF weightOrthF ecpCore m preOcc preNao s).1 =
      naoAssemble lowdinF weightOrthF ecpCore m preOcc preNao s ∧
    ((naoSub lowdinF weightOrthF ecpCore m preOcc preNao s).2 = true ↔
      1 / 10 ^ 18 <
        residSq (naoNr m) s (naoAssemble lowdinF weightOrthF ecpCore m preOcc preNao s)) := by
  exact ⟨rfl, by simp [naoSub]⟩

/-- C5 (code bug): on an atom having s and d shells but no p shell, the
`l = 1` iteration hits `numpy.hstack([])`, which raises `ValueError`
instead of skipping -- the `idx.size < 1: continue` guard sits after the
`hstack` call and is unreachable for an empty collection.  The embedded
`_prenao_sub` returns the error value for every eigensolver and every
input matrix. -/
theorem prenao_sub_gap_error (eighF : Mat → Mat → ℕ → List ℚ × Mat) (p s : Mat) :
    prenaoSub eighF molGap p s = none := rfl

/-- C6: `_spheric_average_mat` equals the spec's reshape-sum-divide
average, and its result is symmetric whenever the input matrix is. -/
theorem spheric_average_refines_spec_and_symm (mat : Mat) (l : ℕ) (lst : List ℕ)
    (degen : ℕ) (hsym : ∀ a b, mat a b = mat b a) (i j : ℕ) :
    sphericAverageMat mat l lst (some degen) i j = sphericAverageSpec mat lst degen i j ∧
    sphericAverageMat mat l lst (some degen) i j
      = sphericAverageMat mat l lst (some degen) j i := by
  refine ⟨rfl, ?_⟩
  show (∑ mm ∈ Finset.range degen, ∑ nn ∈ Finset.range degen,
      mat (lst.getD (i * degen + mm) 0) (lst.getD (j * degen + nn) 0)) / (degen : ℚ)
    = (∑ mm ∈ Finset.range degen, ∑ nn ∈ Finset.range degen,
      mat (lst.getD (j * degen + mm) 0) (lst.getD (i * degen + nn) 0)) / (degen : ℚ)
  congr 1
  rw [Finset.sum_comm]
  exact Finset.sum_congr rfl fun mm _ => Finset.sum_congr rfl fun nn _ => hsym _ _

/-- Witness for C6 at a concrete symmetric matrix. -/
theorem spheric_average_refines_spec_and_symm_witness :
    (∀ a b, ((fun a b => (a * b : ℚ)) : Mat) a b = ((fun a b => (a * b : ℚ)) : Mat) b a) ∧
    (sphericAverageMat (fun a b => (a * b : ℚ)) 0 [2, 3] (some 1) 0 1
        = sphericAverageSpec (fun a b => (a * b : ℚ)) [2, 3] 1 0 1 ∧
      sphericAverageMat (fun a b => (a * b : ℚ)) 0 [2, 3] (some 1) 0 1
        = sphericAverageMat (fun a b => (a * b : ℚ)) 0 [2, 3] (some 1) 1 0) :=
  ⟨fun a b => mul_comm (a : ℚ) b,
    spheric_average_refines_spec_and_symm (fun a b => (a * b : ℚ)) 0 [2, 3] 1
      (fun a b => mul_comm (a : ℚ) b) 0 1⟩

/-- C7 counterexample: the default valence d count for Fe is 1, not 0
(the default table row is core "3s2p0d0f", core+valence "4s2p1d0f"), so
`set_atom_conf('Fe', 'double d')` changes the d count from 1 to 2. -/
theorem set_atom_conf_double_d_cx :
    AOSHELL.getD 26 ("", "") = ("3s2p0d0f", "4s2p1d0f") ∧
    (shellCounts ("4s2p1d0f")).getD 2 0 = 1 ∧
    (shellCounts ("4s2p1d0f")).getD 2 0 - (shellCounts ("3s2p0d0f")).getD 2 0 = 1 ∧
    ¬ ((shellCounts ("4s2p1d0f")).getD 2 0 - (shellCounts ("3s2p0d0f")).getD 2 0 = 0) ∧
    (set_atom_conf AOSHELL 26 (Sum.inl ("double d"))).map (fun t => t.getD 26 ("", ""))
      = some ("3s2p0d0f", "4s2p2d0f") := by decide

/-- C7 amended: starting from the default table,
`set_atom_conf('Fe', 'double d')` rewrites only the Fe entry, changing
only the valence d count -- from the default 1 to 2 -- and keeping the
core configuration "3s2p0d0f". -/
theorem set_atom_conf_double_d_fe :
    set_atom_conf AOSHELL 26 (Sum.inl ("double d"))
      = some (AOSHELL.set 26 ("3s2p0d0f", "4s2p2d0f")) ∧
    AOSHELL.getD 26 ("", "") = ("3s2p0d0f", "4s2p1d0f") ∧
    shellCounts ("4s2p2d0f") = (shellCounts ("4s2p1d0f")).set 2 2 := by decide

/-- C8 counterexample: for Fe the first channel with zero valence count
(core+valence minus core) is p (counts [1,0,1,0], first zero at index 1),
but `set_atom_conf('Fe', 'polarize')` leaves the p count unchanged and
adds an f shell instead: the code locates the first zero core+valence
count, not the first zero valence count. -/
theorem polarize_fe_cx :
    AOSHELL.getD 26 ("", "") = ("3s2p0d0f", "4s2p1d0f") ∧
    List.zipWith (fun a b => a - b) (shellCounts ("4s2p1d0f")) (shellCounts ("3s2p0d0f"))
      = [1, 0, 1, 0] ∧
    ([1, 0, 1, 0].findIdx? (fun c => c == 0)) = some 1 ∧
    (set_atom_conf AOSHELL 26 (Sum.inl ("polarize"))).map
        (fun t => shellCounts (t.getD 26 ("", "")).2)
      = some [4, 2, 1, 1] ∧
    ¬ ([4, 2, 1, 1].getD 1 0 = (shellCounts ("4s2p1d0f")).getD 1 0 + 1) := by decide

set_option maxRecDepth 20000 in
/-- C8 amended: for every element of the default table whose core+valence
string has a zero count, `polarize` adds exactly one shell to the first
channel (s,p,d,f order) whose core+valence count is zero, leaving all
other channels, the core configuration and all other table entries
unchanged. -/
theorem polarize_first_cv_zero_channel :
    ∀ z, z < 119 → (AOSHELL.getD z ("", "")).2.toList.contains '0' = true →
      polarizeCheck z = true := by decide

/-- Witness for the amended C8 at Fe. -/
theorem polarize_first_cv_zero_channel_witness :
    26 < 119 ∧ (AOSHELL.getD 26 ("", "")).2.toList.contains '0' = true ∧
    polarizeCheck 26 = true :=
  ⟨by decide, by decide, polarize_first_cv_zero_channel 26 (by decide) (by decide)⟩

set_option maxRecDepth 20000 in
/-- C9: for every element whose core+valence string has no '0' digit,
`polarize` rewrites entry `z` with both shell-count rows numerically
unchanged, and no other entry changes. -/
theorem polarize_noop_when_no_zero :
    ∀ z, z < 119 → (AOSHELL.getD z ("", "")).2.toList.contains '0' = false →
      polarizeNoopCheck z = true := by decide

/-- Witness for C9 at Ce (Z = 58, core+valence "6s4p3d1f"). -/
theorem polarize_noop_when_no_zero_witness :
    58 < 119 ∧ (AOSHELL.getD 58 ("", "")).2.toList.contains '0' = false ∧
    polarizeNoopCheck 58 = true :=
  ⟨by decide, by decide, polarize_noop_when_no_zero 58 (by decide) (by decide)⟩


/-- Transpose of a truncated product. -/
theorem vTr_mmul (n : ℕ) (A B : Mat) : vTr (mmul n A B) = mmul n (vTr B) (vTr A) := by
  funext i j
  show ∑ t ∈ Finset.range n, A j t * B t i = ∑ t ∈ Finset.range n, B t i * A j t
  exact Finset.sum_congr rfl fun t _ => mul_comm _ _

/-- Associativity of the truncated product. -/
theorem mmul_assoc (n : ℕ) (A B C : Mat) :
    mmul n (mmul n A B) C = mmul n A (mmul n B C) := by
  funext i j
  show ∑ u ∈ Finset.range n, (∑ t ∈ Finset.range n, A i t * B t u) * C u j
    = ∑ t ∈ Finset.range n, A i t * ∑ u ∈ Finset.range n, B t u * C u j
  calc ∑ u ∈ Finset.range n, (∑ t ∈ Finset.range n, A i t * B t u) * C u j
      = ∑ u ∈ Finset.range n, ∑ t ∈ Finset.range n, A i t * (B t u * C u j) := by
        refine Finset.sum_congr rfl fun u _ => ?_
        rw [Finset.sum_mul]
        exact Finset.sum_congr rfl fun t _ => mul_assoc _ _ _
    _ = ∑ t ∈ Finset.range n, ∑ u ∈ Finset.range n, A i t * (B t u * C u j) :=
        Finset.sum_comm
    _ = ∑ t ∈ Finset.range n, A i t * ∑ u ∈ Finset.range n, B t u * C u j := by
        refine Finset.sum_congr rfl fun t _ => ?_
        rw [Finset.mul_sum]

/-- C4 counterexample: with the two-function molecule `molTwoS`, the
eigensolver `eighCx` (whose output on the solved block diag(1,2) is a
legitimate `eigh` result: ascending eigenvalues [1,2], orthonormal
eigenvectors, exact eigen-equation), the non-orthonormal coefficients
`cCx = diag(1,2)`, overlap `idm 2` and density `pCx`, the restoration
rotation is orthogonal and yet `(C*R).T*S*(C*R) ≠ C.T*S*C` at entry
(0,0) (4 versus 1): right-multiplying by an orthogonal rotation only
preserves `C.T*S*C` when that Gram matrix is the identity. -/
theorem nao_restore_cx :
    (prenaoSub eighCx molTwoS (pnaoOf molTwoS pCx cCx) (idm 2)).isSome = true ∧
    matEq2 (sphericAverageMat (pnaoOf molTwoS pCx cCx) 0 [0, 1] (some 1)) dCx = true ∧
    (eighAt eighCx false (pnaoOf molTwoS pCx cCx) (idm 2) 0 [0, 1]).1 = [1, 2] ∧
    [(1 : ℚ), 2].Sorted (· ≤ ·) ∧
    matEq2 (mmul 2 (vTr vCx) vCx) (idm 2) = true ∧
    matEq2 (mmul 2 (sphericAverageMat (pnaoOf molTwoS pCx cCx) 0 [0, 1] (some 1)) vCx)
      (mmul 2 vCx dCx) = true ∧
    matEq2 (mmul 2 (vTr (restR eighCx molTwoS pCx cCx)) (restR eighCx molTwoS pCx cCx))
      (idm 2) = true ∧
    (naoRestore eighCx molTwoS pCx cCx).isSome = true ∧
    ¬ (mmul 2 (mmul 2 (vTr (restC eighCx molTwoS pCx cCx)) (idm 2))
          (restC eighCx molTwoS pCx cCx) 0 0
        = mmul 2 (mmul 2 (vTr cCx) (idm 2)) cCx 0 0) := by with_unfolding_all decide

/-- C4 amended: whenever the coefficient matrix entering the restoration
pass is orthonormal under `s` on the basis range (as the assembled NAO
coefficients are in exact arithmetic) and the restoration rotation `R`
is orthogonal, the pass succeeds and `(cnao*R).T * s * (cnao*R)` agrees
with `cnao.T * s * cnao` on the basis range: the orthogonal
right-multiplication preserves orthonormality exactly. -/
theorem nao_restore_preserves_orthonormality
    (eighF : Mat → Mat → ℕ → List ℚ × Mat) (m : MolData) (p s cnao : Mat)
    (hsome : (prenaoSub eighF m (pnaoOf m p cnao) (idm (naoNr m))).isSome = true)
    (hC : ∀ i, i < naoNr m → ∀ j, j < naoNr m →
      mmul (naoNr m) (mmul (naoNr m) (vTr cnao) s) cnao i j = idm (naoNr m) i j)
    (hR : ∀ i, i < naoNr m → ∀ j, j < naoNr m →
      mmul (naoNr m) (vTr (restR eighF m p cnao)) (restR eighF m p cnao) i j
        = idm (naoNr m) i j)
    (i j : ℕ) (hi : i < naoNr m) (hj : j < naoNr m) :
    (naoRestore eighF m p cnao).isSome = true ∧
    mmul (naoNr m) (mmul (naoNr m) (vTr (restC eighF m p cnao)) s)
        (restC eighF m p cnao) i j
      = mmul (naoNr m) (mmul (naoNr m) (vTr cnao) s) cnao i j := by
  obtain ⟨pr, hpr⟩ := Option.isSome_iff_exists.mp hsome
  have hpr2 : prenaoSub eighF m
      (mmul (naoNr m) (mmul (naoNr m) (vTr cnao) p) cnao) (idm (naoNr m)) = some pr := by
    simpa only [pnaoOf] using hpr
  have hres : naoRestore eighF m p cnao = some (mmul (naoNr m) cnao pr.2) := by
    simp only [naoRestore, hpr2, Option.map_some']
  have hRval : restR eighF m p cnao = pr.2 := by
    simp only [restR, hpr, Option.getD_some]
  have hCval : restC eighF m p cnao = mmul (naoNr m) cnao pr.2 := by
    simp only [restC, hres, Option.getD_some]
  refine ⟨by simp [hres], ?_⟩
  rw [hRval] at hR
  rw [hCval, vTr_mmul, mmul_assoc (naoNr m) (vTr pr.2) (vTr cnao) s,
    mmul_assoc (naoNr m) (vTr pr.2) (mmul (naoNr m) (vTr cnao) s)
      (mmul (naoNr m) cnao pr.2),
    ← mmul_assoc (naoNr m) (mmul (naoNr m) (vTr cnao) s) cnao pr.2]
  calc mmul (naoNr m) (vTr pr.2)
        (mmul (naoNr m) (mmul (naoNr m) (mmul (naoNr m) (vTr cnao) s) cnao) pr.2) i j
      = ∑ t ∈ Finset.range (naoNr m), pr.2 t i *
          ∑ u ∈ Finset.range (naoNr m),
            mmul (naoNr m) (mmul (naoNr m) (vTr cnao) s) cnao t u * pr.2 u j := rfl
    _ = ∑ t ∈ Finset.range (naoNr m), pr.2 t i * pr.2 t j := by
        refine Finset.sum_congr rfl fun t ht => ?_
        have ht2 := Finset.mem_range.mp ht
        congr 1
        calc ∑ u ∈ Finset.range (naoNr m),
              mmul (naoNr m) (mmul (naoNr m) (vTr cnao) s) cnao t u * pr.2 u j
            = ∑ u ∈ Finset.range (naoNr m), (if t = u then pr.2 u j else 0) := by
              refine Finset.sum_congr rfl fun u hu => ?_
              rw [hC t ht2 u (Finset.mem_range.mp hu)]
              by_cases h : t = u
              · simp [idm, h, Finset.mem_range.mp hu]
              · simp [idm, h]
          _ = pr.2 t j := by
              rw [Finset.sum_ite_eq]
              simp [Finset.mem_range.mpr ht2]
    _ = mmul (naoNr m) (vTr pr.2) pr.2 i j := rfl
    _ = idm (naoNr m) i j := hR i hi j hj
    _ = mmul (naoNr m) (mmul (naoNr m) (vTr cnao) s) cnao i j := (hC i hi j hj).symm

/-- Witness for the amended C4 at a one-function molecule with identity
coefficients, overlap and density and a trivial eigensolver. -/
theorem nao_restore_preserves_orthonormality_witness :
    (prenaoSub eighOne molOneS (pnaoOf molOneS (idm 1) (idm 1))
        (idm (naoNr molOneS))).isSome = true ∧
    (∀ i, i < naoNr molOneS → ∀ j, j < naoNr molOneS →
      mmul (naoNr molOneS) (mmul (naoNr molOneS) (vTr (idm 1)) (idm 1)) (idm 1) i j
        = idm (naoNr molOneS) i j) ∧
    (∀ i, i < naoNr molOneS → ∀ j, j < naoNr molOneS →
      mmul (naoNr molOneS) (vTr (restR eighOne molOneS (idm 1) (idm 1)))
          (restR eighOne molOneS (idm 1) (idm 1)) i j = idm (naoNr molOneS) i j) ∧
    0 < naoNr molOneS ∧
    ((naoRestore eighOne molOneS (idm 1) (idm 1)).isSome = true ∧
      mmul (naoNr molOneS) (mmul (naoNr molOneS)
          (vTr (restC eighOne molOneS (idm 1) (idm 1))) (idm 1))
          (restC eighOne molOneS (idm 1) (idm 1)) 0 0
        = mmul (naoNr molOneS) (mmul (naoNr molOneS) (vTr (idm 1)) (idm 1)) (idm 1) 0 0) :=
  ⟨by with_unfolding_all decide, by with_unfolding_all decide,
    by with_unfolding_all decide, by decide,
    nao_restore_preserves_orthonormality eighOne molOneS (idm 1) (idm 1) (idm 1)
      (by with_unfolding_all decide) (by with_unfolding_all decide)
      (by with_unfolding_all decide) 0 0 (by decide) (by decide)⟩


/-- Appending a block of indices starting at the current offset keeps a
bounded strictly-increasing list strictly increasing. -/
theorem sorted_append_range' (l : List ℕ) (k deg : ℕ) (hs : l.Sorted (· < ·))
    (hb : ∀ x ∈ l, x < k) : (l ++ List.range' k deg).Sorted (· < ·) := by
  rw [List.Sorted, List.pairwise_append]
  refine ⟨hs, List.pairwise_lt_range' k deg, ?_⟩
  intro a ha b hb2
  exact lt_of_lt_of_le (hb a ha) (List.mem_range'_1.mp hb2).1

/-- `range k ++ range' k deg = range (k + deg)`. -/
theorem range_append_range' (k deg : ℕ) :
    List.range k ++ List.range' k deg = List.range (k + deg) := by
  rw [List.range_eq_range', List.range_eq_range']
  have h := List.range'_append 0 k deg 1
  simp only [Nat.one_mul, Nat.zero_add] at h
  rw [Nat.add_comm k deg]
  exact h

/-- Pushing a fresh block onto any one of three lists extends a
permutation of the union accordingly. -/
theorem perm_snoc_block (x y z r R : List ℕ) (h : (x ++ y ++ z).Perm R) :
    ((x ++ r) ++ y ++ z).Perm (R ++ r) ∧ (x ++ (y ++ r) ++ z).Perm (R ++ r) ∧
    (x ++ y ++ (z ++ r)).Perm (R ++ r) := by
  rw [← Multiset.coe_eq_coe] at h
  simp only [← Multiset.coe_add] at h
  refine ⟨?_, ?_, ?_⟩ <;> rw [← Multiset.coe_eq_coe] <;>
    simp only [← Multiset.coe_add] <;> rw [← h] <;> abel

/-- One classification step preserves the classifier invariant. -/
theorem classifyOne_ok (coreshell cvshell ecpl l deg cnt n : ℕ) (st : CVRState)
    (h : cvrOk st) : cvrOk (classifyOne coreshell cvshell ecpl l deg cnt st n) := by
  obtain ⟨hs1, hs2, hs3, hperm⟩ := h
  have hb : ∀ x ∈ st.core ++ st.val ++ st.ryd, x < st.k := fun x hx =>
    List.mem_range.mp (hperm.mem_iff.mp hx)
  have hbc : ∀ x ∈ st.core, x < st.k := fun x hx => hb x (by simp [List.mem_append, hx])
  have hbv : ∀ x ∈ st.val, x < st.k := fun x hx => hb x (by simp [List.mem_append, hx])
  have hbr : ∀ x ∈ st.ryd, x < st.k := fun x hx => hb x (by simp [List.mem_append, hx])
  have hp := perm_snoc_block st.core st.val st.ryd (List.range' st.k deg)
    (List.range st.k) hperm
  unfold classifyOne
  split_ifs with h1 h2 h3
  · refine ⟨hs1, hs2, sorted_append_range' st.ryd st.k deg hs3 hbr, ?_⟩
    have hq := hp.2.2
    rwa [range_append_range'] at hq
  · refine ⟨sorted_append_range' st.core st.k deg hs1 hbc, hs2, hs3, ?_⟩
    have hq := hp.1
    rwa [range_append_range'] at hq
  · refine ⟨hs1, sorted_append_range' st.val st.k deg hs2 hbv, hs3, ?_⟩
    have hq := hp.2.1
    rwa [range_append_range'] at hq
  · refine ⟨hs1, hs2, sorted_append_range' st.ryd st.k deg hs3 hbr, ?_⟩
    have hq := hp.2.2
    rwa [range_append_range'] at hq

/-- Folding invariant-preserving steps preserves the invariant. -/
theorem foldl_preserves_cvrOk {α : Type} (f : CVRState → α → CVRState)
    (hf : ∀ st a, cvrOk st → cvrOk (f st a)) (l : List α) :
    ∀ st, cvrOk st → cvrOk (l.foldl f st) := by
  induction l with
  | nil => exact fun _ h => h
  | cons a rest ih => exact fun st h => ih (f st a) (hf st a h)

/-- One shell preserves the classifier invariant. -/
theorem classifyShell_ok (ecpCore : ℕ → List ℕ) (cart : Bool) (ia : ℕ) (a : AtomData)
    (st : CVRState) (sh : ℕ × ℕ) (h : cvrOk st) :
    cvrOk (classifyShell ecpCore cart ia a st sh) :=
  foldl_preserves_cvrOk _
    (fun st2 n h2 => classifyOne_ok _ _ _ _ _ _ n st2 h2) (List.range sh.2) st h

/-- The classifier's final state satisfies the invariant. -/
theorem coreValRydList_ok (ecpCore : ℕ → List ℕ) (m : MolData) :
    cvrOk (coreValRydList ecpCore m) := by
  refine foldl_preserves_cvrOk _ ?_ m.atoms.enum cvrInit ?_
  · intro st x
    exact foldl_preserves_cvrOk _
      (fun st2 sh h2 => classifyShell_ok ecpCore m.cart x.1 x.2 st2 sh h2) x.2.shells st
  · exact ⟨List.sorted_nil, List.sorted_nil, List.sorted_nil, by simp [cvrInit]⟩

/-- Offset tracking through a fold with per-step increments. -/
theorem foldl_k_add {α : Type} (f : CVRState → α → CVRState) (g : α → ℕ)
    (hf : ∀ st a, (f st a).k = st.k + g a) (l : List α) (st : CVRState) :
    (l.foldl f st).k = st.k + (l.map g).sum := by
  induction l generalizing st with
  | nil => simp
  | cons a rest ih => rw [List.foldl_cons, ih, hf, List.map_cons, List.sum_cons]; omega

/-- One classification step advances the offset by `deg`. -/
theorem classifyOne_k (coreshell cvshell ecpl l deg cnt : ℕ) (st : CVRState) (n : ℕ) :
    (classifyOne coreshell cvshell ecpl l deg cnt st n).k = st.k + deg := by
  unfold classifyOne
  split_ifs <;> rfl

/-- One shell advances the offset by its basis-function count. -/
theorem classifyShell_k (ecpCore : ℕ → List ℕ) (cart : Bool) (ia : ℕ) (a : AtomData)
    (st : CVRState) (sh : ℕ × ℕ) :
    (classifyShell ecpCore cart ia a st sh).k = st.k + shellDim cart sh := by
  show ((List.range sh.2).foldl _ st).k = st.k + shellDim cart sh
  rw [foldl_k_add _ (fun _ => degenOf cart sh.1)
    (fun st2 n => classifyOne_k _ _ _ _ _ _ st2 n) (List.range sh.2) st]
  simp [List.map_const', List.sum_replicate, smul_eq_mul, shellDim, Nat.mul_comm]

/-- The classifier's final offset is the total basis-function count. -/
theorem coreValRydList_k (ecpCore : ℕ → List ℕ) (m : MolData) :
    (coreValRydList ecpCore m).k = naoNr m := by
  show (m.atoms.enum.foldl _ cvrInit).k = naoNr m
  rw [foldl_k_add _ (fun x => atomDim m.cart x.2.shells) ?hstep m.atoms.enum cvrInit]
  case hstep =>
    intro st x
    exact foldl_k_add _ (shellDim m.cart)
      (fun st2 sh => classifyShell_k ecpCore m.cart x.1 x.2 st2 sh) x.2.shells st
  have hmap : m.atoms.enum.map (fun x => atomDim m.cart x.2.shells)
      = m.atoms.map (fun a => atomDim m.cart a.shells) := by
    rw [show (fun x : ℕ × AtomData => atomDim m.cart x.2.shells)
        = (fun a : AtomData => atomDim m.cart a.shells) ∘ Prod.snd from rfl,
      ← List.map_map, List.enum_map_snd]
  rw [hmap]
  simp [cvrInit, naoNr]

/-- C2: the three index lists of `_core_val_ryd_list` are each strictly
increasing, pairwise disjoint, and their concatenation is a permutation
of `0..n_ao-1`: every basis-function index is assigned exactly once.
This holds for every molecule metadata and every ECP core rule. -/
theorem core_val_ryd_partition (ecpCore : ℕ → List ℕ) (m : MolData) :
    (coreValRydList ecpCore m).core.Sorted (· < ·) ∧
    (coreValRydList ecpCore m).val.Sorted (· < ·) ∧
    (coreValRydList ecpCore m).ryd.Sorted (· < ·) ∧
    (coreValRydList ecpCore m).core.Disjoint (coreValRydList ecpCore m).val ∧
    (coreValRydList ecpCore m).core.Disjoint (coreValRydList ecpCore m).ryd ∧
    (coreValRydList ecpCore m).val.Disjoint (coreValRydList ecpCore m).ryd ∧
    ((coreValRydList ecpCore m).core ++ (coreValRydList ecpCore m).val ++
      (coreValRydList ecpCore m).ryd).Perm (List.range (naoNr m)) := by
  obtain ⟨hs1, hs2, hs3, hperm⟩ := coreValRydList_ok ecpCore m
  rw [coreValRydList_k ecpCore m] at hperm
  have hnd := hperm.nodup_iff.mpr (List.nodup_range _)
  rw [List.nodup_append] at hnd
  obtain ⟨hnd1, _, hd2⟩ := hnd
  rw [List.nodup_append] at hnd1
  rw [List.disjoint_append_left] at hd2
  exact ⟨hs1, hs2, hs3, hnd1.2.2, hd2.1, hd2.2, hperm⟩


/-- The occupation component of `blockWrite` is the fold of the
vectorized occupation assignments alone (the `cao` writes do not touch
`occ`). -/
theorem blockWrite_fst (degen : ℕ) (idx : List ℕ) (erev : List ℚ) (vrev : Mat)
    (oc : (ℕ → ℚ) × Mat) :
    (blockWrite degen idx erev vrev oc).1 =
      (List.range degen).foldl
        (fun f k => vecAssign f (ilstOf degen idx k) erev) oc.1 := by
  show ((List.range degen).foldl _ oc).1 = _
  generalize List.range degen = ks
  induction ks generalizing oc with
  | nil => rfl
  | cons k rest ih => exact ih _

/-- A position not assigned by any component column keeps its value. -/
theorem foldl_vecAssign_not_mem (erev : List ℚ) (ils : ℕ → List ℕ) (p : ℕ)
    (ks : List ℕ) (f : ℕ → ℚ) (hp : ∀ k ∈ ks, p ∉ ils k) :
    ks.foldl (fun f k => vecAssign f (ils k) erev) f p = f p := by
  induction ks generalizing f with
  | nil => rfl
  | cons k rest ih =>
    rw [List.foldl_cons, ih _ (fun k2 h2 => hp k2 (List.mem_cons_of_mem _ h2))]
    simp [vecAssign, hp k (List.mem_cons_self _ _)]

/-- A position assigned by exactly the component column `k` ends with the
eigenvalue at its radial index. -/
theorem foldl_vecAssign_mem (erev : List ℚ) (ils : ℕ → List ℕ) (p k : ℕ) (x : ℚ)
    (ks : List ℕ) (hk : k ∈ ks)
    (hother : ∀ k2 ∈ ks, k2 ≠ k → p ∉ ils k2)
    (hmem : p ∈ ils k) (hval : erev.getD ((ils k).indexOf p) 0 = x) :
    ∀ f, ks.foldl (fun f k2 => vecAssign f (ils k2) erev) f p = x := by
  induction ks with
  | nil => cases hk
  | cons k2 rest ih =>
    intro f
    rw [List.foldl_cons]
    by_cases hkr : k ∈ rest
    · exact ih hkr (fun k3 h3 hne => hother k3 (List.mem_cons_of_mem _ h3) hne) _
    · have hk2 : k2 = k := by
        rcases List.mem_cons.mp hk with h | h
        · exact h.symm
        · exact absurd h hkr
      subst hk2
      rw [foldl_vecAssign_not_mem erev ils p rest _
        (fun k3 h3 => hother k3 (List.mem_cons_of_mem _ h3) (fun he => hkr (he ▸ h3)))]
      show vecAssign f (ils k2) erev p = x
      unfold vecAssign
      rw [if_pos hmem]
      exact hval

/-- The occupation component of one processed block, as a fold of the
per-component vectorized assignments of the reversed eigenvalues. -/
theorem prenaoBlock_fst (eighF : Mat → Mat → ℕ → List ℚ × Mat) (cart : Bool)
    (p s : Mat) (l : ℕ) (idx : List ℕ) (oc : (ℕ → ℚ) × Mat) :
    (prenaoBlock eighF cart p s l idx oc).1 =
      (List.range (degenOf cart l)).foldl
        (fun f k => vecAssign f (ilstOf (degenOf cart l) idx k)
          (eighAt eighF cart p s l idx).1.reverse) oc.1 := by
  unfold prenaoBlock
  exact blockWrite_fst _ _ _ _ _

/-- C3: within one (atom, l) block of `_prenao_sub`, for each of the
`degen` angular components the occupations written into `occ` along the
radial order are non-increasing, given the `scipy.linalg.eigh` contract
that the returned eigenvalue list is ascending (the code reverses it to
descending before writing). -/
theorem prenao_block_occ_nonincreasing
    (eighF : Mat → Mat → ℕ → List ℚ × Mat) (cart : Bool) (p s : Mat) (l : ℕ)
    (idx : List ℕ) (oc : (ℕ → ℚ) × Mat) (k i j : ℕ)
    (hnodup : idx.Nodup)
    (hlen : (eighAt eighF cart p s l idx).1.length = idx.length / degenOf cart l)
    (hsort : (eighAt eighF cart p s l idx).1.Sorted (· ≤ ·))
    (hk : k < degenOf cart l) (hij : i < j) (hj : j < idx.length / degenOf cart l) :
    (prenaoBlock eighF cart p s l idx oc).1 (idx.getD (j * degenOf cart l + k) 0)
      ≤ (prenaoBlock eighF cart p s l idx oc).1 (idx.getD (i * degenOf cart l + k) 0) := by
  have hdeg0 : 0 < degenOf cart l := Nat.lt_of_le_of_lt (Nat.zero_le k) hk
  have hpos : ∀ i2 k2, i2 < idx.length / degenOf cart l → k2 < degenOf cart l →
      i2 * degenOf cart l + k2 < idx.length := by
    intro i2 k2 hi2 hk2
    have h1 : i2 * degenOf cart l + k2 < (i2 + 1) * degenOf cart l := by
      have : (i2 + 1) * degenOf cart l = i2 * degenOf cart l + degenOf cart l :=
        Nat.succ_mul i2 (degenOf cart l)
      omega
    have h2 : (i2 + 1) * degenOf cart l ≤ (idx.length / degenOf cart l) * degenOf cart l :=
      Nat.mul_le_mul_right (degenOf cart l) hi2
    exact lt_of_lt_of_le h1 (le_trans h2 (Nat.div_mul_le_self idx.length (degenOf cart l)))
  have hinj : ∀ i2 k2 i3 k3, i2 < idx.length / degenOf cart l → k2 < degenOf cart l →
      i3 < idx.length / degenOf cart l → k3 < degenOf cart l →
      idx.getD (i2 * degenOf cart l + k2) 0 = idx.getD (i3 * degenOf cart l + k3) 0 →
      i2 = i3 ∧ k2 = k3 := by
    intro i2 k2 i3 k3 hi2 hk2 hi3 hk3 heq
    rw [List.getD_eq_getElem idx 0 (hpos i2 k2 hi2 hk2),
      List.getD_eq_getElem idx 0 (hpos i3 k3 hi3 hk3)] at heq
    have hpe : i2 * degenOf cart l + k2 = i3 * degenOf cart l + k3 :=
      (hnodup.getElem_inj_iff).mp heq
    have hkk : k2 = k3 := by
      have e2 : (i2 * degenOf cart l + k2) % degenOf cart l = k2 := by
        rw [Nat.mul_comm i2 (degenOf cart l), Nat.mul_add_mod]
        exact Nat.mod_eq_of_lt hk2
      have e3 : (i3 * degenOf cart l + k3) % degenOf cart l = k3 := by
        rw [Nat.mul_comm i3 (degenOf cart l), Nat.mul_add_mod]
        exact Nat.mod_eq_of_lt hk3
      rw [← e2, ← e3, hpe]
    refine ⟨?_, hkk⟩
    subst hkk
    have := Nat.add_right_cancel hpe
    exact Nat.eq_of_mul_eq_mul_right hdeg0 this
  have hmemi : ∀ i2, i2 < idx.length / degenOf cart l →
      idx.getD (i2 * degenOf cart l + k) 0 ∈ ilstOf (degenOf cart l) idx k := by
    intro i2 hi2
    exact List.mem_map.mpr ⟨i2, List.mem_range.mpr hi2, rfl⟩
  have hnodilst : (ilstOf (degenOf cart l) idx k).Nodup := by
    refine List.Nodup.map_on ?_ (List.nodup_range _)
    intro x hx y hy hxy
    exact (hinj x k y k (List.mem_range.mp hx) hk (List.mem_range.mp hy) hk hxy).1
  have hidxof : ∀ i2, i2 < idx.length / degenOf cart l →
      (ilstOf (degenOf cart l) idx k).indexOf (idx.getD (i2 * degenOf cart l + k) 0)
        = i2 := by
    intro i2 hi2
    have hlen2 : i2 < (ilstOf (degenOf cart l) idx k).length := by
      simpa [ilstOf] using hi2
    have hget : (ilstOf (degenOf cart l) idx k).get ⟨i2, hlen2⟩
        = idx.getD (i2 * degenOf cart l + k) 0 := by
      simp [ilstOf]
    rw [← hget]
    exact List.indexOf_getElem hnodilst i2 hlen2
  have hnotmem : ∀ i2 k2, i2 < idx.length / degenOf cart l → k2 < degenOf cart l →
      k2 ≠ k → idx.getD (i2 * degenOf cart l + k) 0 ∉ ilstOf (degenOf cart l) idx k2 := by
    intro i2 k2 hi2 hk2 hne hmem
    obtain ⟨i3, hi3, heq⟩ := List.mem_map.mp hmem
    exact hne ((hinj i3 k2 i2 k (List.mem_range.mp hi3) hk2 hi2 hk heq).2)
  have hvali : ∀ i2, i2 < idx.length / degenOf cart l →
      (prenaoBlock eighF cart p s l idx oc).1 (idx.getD (i2 * degenOf cart l + k) 0)
        = (eighAt eighF cart p s l idx).1.reverse.getD i2 0 := by
    intro i2 hi2
    rw [prenaoBlock_fst eighF cart p s l idx oc]
    exact foldl_vecAssign_mem _ (ilstOf (degenOf cart l) idx) _ k _
      (List.range (degenOf cart l)) (List.mem_range.mpr hk)
      (fun k2 h2 hne => hnotmem i2 k2 hi2 (List.mem_range.mp h2) hne)
      (hmemi i2 hi2) (by rw [hidxof i2 hi2]) oc.1
  have hi : i < idx.length / degenOf cart l := lt_trans hij hj
  rw [hvali j hj, hvali i hi]
  have hlrev : (eighAt eighF cart p s l idx).1.reverse.length
      = idx.length / degenOf cart l := by
    rw [List.length_reverse, hlen]
  rw [List.getD_eq_getElem _ 0 (show j < _ from hlrev ▸ hj),
    List.getD_eq_getElem _ 0 (show i < _ from hlrev ▸ hi),
    List.getElem_reverse, List.getElem_reverse]
  refine List.pairwise_iff_getElem.mp hsort _ _ ?_ ?_ ?_
  all_goals omega


/-- Witness for C3: a spherical s block (degen 1) with two radial
functions at AO indices 5 and 9 and an eigensolver returning the
ascending list [0, 1]; after the block write the occupation at the
second radial index is below the one at the first. -/
theorem prenao_block_occ_nonincreasing_witness :
    ([5, 9] : List ℕ).Nodup ∧
    (eighAt (fun _ _ _ => ([0, 1], fun _ _ => 0)) false (fun _ _ => 0) (fun _ _ => 0)
        0 [5, 9]).1.length = ([5, 9] : List ℕ).length / degenOf false 0 ∧
    (eighAt (fun _ _ _ => ([0, 1], fun _ _ => 0)) false (fun _ _ => 0) (fun _ _ => 0)
        0 [5, 9]).1.Sorted (· ≤ ·) ∧
    0 < degenOf false 0 ∧ 0 < 1 ∧ 1 < ([5, 9] : List ℕ).length / degenOf false 0 ∧
    (prenaoBlock (fun _ _ _ => ([0, 1], fun _ _ => 0)) false (fun _ _ => 0)
        (fun _ _ => 0) 0 [5, 9] (fun _ => 0, fun _ _ => 0)).1
        (([5, 9] : List ℕ).getD (1 * degenOf false 0 + 0) 0)
      ≤ (prenaoBlock (fun _ _ _ => ([0, 1], fun _ _ => 0)) false (fun _ _ => 0)
        (fun _ _ => 0) 0 [5, 9] (fun _ => 0, fun _ _ => 0)).1
        (([5, 9] : List ℕ).getD (0 * degenOf false 0 + 0) 0) :=
  ⟨by decide, by with_unfolding_all decide, by with_unfolding_all decide,
    by decide, by decide, by decide,
    prenao_block_occ_nonincreasing (fun _ _ _ => ([0, 1], fun _ _ => 0)) false
      (fun _ _ => 0) (fun _ _ => 0) 0 [5, 9] (fun _ => 0, fun _ _ => 0) 0 0 1
      (by decide) (by with_unfolding_all decide) (by with_unfolding_all decide)
      (by decide) (by decide) (by decide)⟩


/-- Allocation leaves existing cells readable unchanged. -/
theorem halloc_lookup {V : Type} (h : List V) (v : V) (j : ℕ) (hj : j < h.length) :
    (halloc h v).1[j]? = h[j]? :=
  List.getElem?_append_left hj

/-- Writing one cell leaves the others unchanged. -/
theorem hput_lookup_ne {V : Type} (h : List V) (i : ℕ) (v : V) (j : ℕ) (hne : j ≠ i) :
    (hput h i v)[j]? = h[j]? :=
  List.getElem?_set_ne (Ne.symm hne)

/-- The id returned by an allocation. -/
theorem halloc_snd {V : Type} (h : List V) (v : V) : (halloc h v).2 = h.length := rfl

/-- Allocation grows the heap by one cell. -/
theorem halloc_fst_length {V : Type} (h : List V) (v : V) :
    (halloc h v).1.length = h.length + 1 := by
  simp [halloc]

/-- Writing preserves the heap size. -/
theorem hput_length {V : Type} (h : List V) (i : ℕ) (v : V) :
    (hput h i v).length = h.length := by
  simp [hput]

/-- The core branch of the heap-level `_nao_sub` only writes the `cnao`
cell and cells it freshly allocated. -/
theorem naoHeapCoreStage_frame {V : Type} (pickF : V → List ℕ → V) (gramF : V → V → V)
    (lowdinF : V → V) (dotF : V → V → V) (deflateF : V → V → V → V)
    (setColsF : V → List ℕ → V → V) (dflt : V) (coreL valL : List ℕ)
    (sV : V) (iNao2 iCnao : ℕ) (h : List V) (j : ℕ) (hj : j < h.length)
    (hjC : j ≠ iCnao) :
    (naoHeapCoreStage pickF gramF lowdinF dotF deflateF setColsF dflt
      coreL valL sV iNao2 iCnao h).1[j]? = h[j]? := by
  unfold naoHeapCoreStage
  split_ifs with hc
  · rw [hput_lookup_ne, halloc_lookup, hput_lookup_ne, halloc_lookup, halloc_lookup]
    · exact hj
    · simp only [halloc_fst_length]
      omega
    · exact hjC
    · simp only [hput_length, halloc_fst_length]
      omega
    · simp only [halloc_snd, hput_length, halloc_fst_length]
      omega
  · rw [halloc_lookup]
    exact hj

/-- The core branch never shrinks the heap. -/
theorem naoHeapCoreStage_len {V : Type} (pickF : V → List ℕ → V) (gramF : V → V → V)
    (lowdinF : V → V) (dotF : V → V → V) (deflateF : V → V → V → V)
    (setColsF : V → List ℕ → V → V) (dflt : V) (coreL valL : List ℕ)
    (sV : V) (iNao2 iCnao : ℕ) (h : List V) :
    h.length ≤ (naoHeapCoreStage pickF gramF lowdinF dotF deflateF setColsF dflt
      coreL valL sV iNao2 iCnao h).1.length := by
  unfold naoHeapCoreStage
  split_ifs with hc
  · simp only [hput_length, halloc_fst_length]
    omega
  · simp only [halloc_fst_length]
    omega

/-- The valence branch only writes the `cnao` cell. -/
theorem naoHeapValStage_frame {V : Type} (pickF : V → List ℕ → V) (gramF : V → V → V)
    (dotF : V → V → V) (setColsF : V → List ℕ → V → V) (weightedF : V → V → V)
    (dflt : V) (valL : List ℕ) (sV : V) (iOcc iCnao : ℕ) (br : List V × ℕ)
    (j : ℕ) (hjC : j ≠ iCnao) :
    (naoHeapValStage pickF gramF dotF setColsF weightedF dflt
      valL sV iOcc iCnao br)[j]? = br.1[j]? := by
  unfold naoHeapValStage
  split_ifs with hc
  · rw [hput_lookup_ne]
    exact hjC
  · rfl

/-- The valence branch preserves the heap size. -/
theorem naoHeapValStage_len {V : Type} (pickF : V → List ℕ → V) (gramF : V → V → V)
    (dotF : V → V → V) (setColsF : V → List ℕ → V → V) (weightedF : V → V → V)
    (dflt : V) (valL : List ℕ) (sV : V) (iOcc iCnao : ℕ) (br : List V × ℕ) :
    (naoHeapValStage pickF gramF dotF setColsF weightedF dflt
      valL sV iOcc iCnao br).length = br.1.length := by
  unfold naoHeapValStage
  split_ifs with hc
  · simp only [hput_length]
  · rfl

/-- The Rydberg branch only writes the `cnao` cell and cells it freshly
allocated. -/
theorem naoHeapRydStage_frame {V : Type} (pickF : V → List ℕ → V) (gramF : V → V → V)
    (lowdinF : V → V) (dotF : V → V → V) (deflateF : V → V → V → V)
    (setColsF : V → List ℕ → V → V) (dflt : V) (coreL valL rydL : List ℕ)
    (sV : V) (iNao2 iCnao : ℕ) (h : List V) (j : ℕ) (hj : j < h.length)
    (hjC : j ≠ iCnao) :
    (naoHeapRydStage pickF gramF lowdinF dotF deflateF setColsF dflt
      coreL valL rydL sV iNao2 iCnao h)[j]? = h[j]? := by
  unfold naoHeapRydStage
  split_ifs with hc
  · rw [hput_lookup_ne, hput_lookup_ne, halloc_lookup, halloc_lookup]
    · exact hj
    · simp only [halloc_fst_length]
      omega
    · simp only [halloc_snd, halloc_fst_length]
      omega
    · exact hjC
  · rfl

/-- C10: the heap-level `_nao_sub` leaves the caller's `pre_occ`,
`pre_nao` and `s` cells unchanged: the `astype` cast and every fancy
indexing allocate fresh arrays, and the in-place updates (`-=` and
column assignment) only ever target those fresh cells and the `cnao`
output cell. -/
theorem nao_sub_heap_frame {V : Type} (astypeF : V → V) (emptyF : ℕ → V)
    (pickF : V → List ℕ → V) (gramF : V → V → V) (lowdinF : V → V)
    (dotF : V → V → V) (deflateF : V → V → V → V)
    (setColsF : V → List ℕ → V → V) (weightedF : V → V → V) (dflt : V)
    (coreL valL rydL : List ℕ) (nbf : ℕ) (h0 : List V) (iOcc iNao iS : ℕ)
    (hOcc : iOcc < h0.length) (hNao : iNao < h0.length) (hS : iS < h0.length) :
    (naoSubHeap astypeF emptyF pickF gramF lowdinF dotF deflateF setColsF weightedF
        dflt coreL valL rydL nbf h0 iOcc iNao iS).1[iOcc]? = h0[iOcc]? ∧
    (naoSubHeap astypeF emptyF pickF gramF lowdinF dotF deflateF setColsF weightedF
        dflt coreL valL rydL nbf h0 iOcc iNao iS).1[iNao]? = h0[iNao]? ∧
    (naoSubHeap astypeF emptyF pickF gramF lowdinF dotF deflateF setColsF weightedF
        dflt coreL valL rydL nbf h0 iOcc iNao iS).1[iS]? = h0[iS]? := by
  suffices H : ∀ j, j < h0.length →
      (naoSubHeap astypeF emptyF pickF gramF lowdinF dotF deflateF setColsF weightedF
        dflt coreL valL rydL nbf h0 iOcc iNao iS).1[j]? = h0[j]? from
    ⟨H _ hOcc, H _ hNao, H _ hS⟩
  intro j hj
  unfold naoSubHeap
  have hjC : j ≠ (halloc (halloc h0 (astypeF (h0.getD iNao dflt))).1 (emptyF nbf)).2 := by
    simp only [halloc_snd, halloc_fst_length]
    omega
  have hj2 : j < (halloc (halloc h0 (astypeF (h0.getD iNao dflt))).1 (emptyF nbf)).1.length := by
    simp only [halloc_fst_length]
    omega
  rw [naoHeapRydStage_frame _ _ _ _ _ _ _ _ _ _ _ _ _ _ j ?hlen hjC,
    naoHeapValStage_frame _ _ _ _ _ _ _ _ _ _ _ j hjC,
    naoHeapCoreStage_frame _ _ _ _ _ _ _ _ _ _ _ _ _ j hj2 hjC,
    halloc_lookup _ _ j ?hl2, halloc_lookup _ _ j hj]
  case hl2 =>
    simp only [halloc_fst_length]
    omega
  case hlen =>
    rw [naoHeapValStage_len]
    exact lt_of_lt_of_le hj2 (naoHeapCoreStage_len _ _ _ _ _ _ _ _ _ _ _ _ _)


/-- Witness for C10 on a three-cell heap of natural-number payloads with
trivial array operations and all three partitions engaged. -/
theorem nao_sub_heap_frame_witness :
    (0 : ℕ) < ([5, 6, 7] : List ℕ).length ∧ (1 : ℕ) < ([5, 6, 7] : List ℕ).length ∧
    (2 : ℕ) < ([5, 6, 7] : List ℕ).length ∧
    ((naoSubHeap (fun v => v) (fun _ => 0) (fun v _ => v) (fun a _ => a) (fun v => v)
        (fun a _ => a) (fun a _ _ => a) (fun a _ _ => a) (fun a _ => a) 0
        [0] [1] [2] 3 [5, 6, 7] 0 1 2).1[0]? = ([5, 6, 7] : List ℕ)[0]? ∧
      (naoSubHeap (fun v => v) (fun _ => 0) (fun v _ => v) (fun a _ => a) (fun v => v)
        (fun a _ => a) (fun a _ _ => a) (fun a _ _ => a) (fun a _ => a) 0
        [0] [1] [2] 3 [5, 6, 7] 0 1 2).1[1]? = ([5, 6, 7] : List ℕ)[1]? ∧
      (naoSubHeap (fun v => v) (fun _ => 0) (fun v _ => v) (fun a _ => a) (fun v => v)
        (fun a _ => a) (fun a _ _ => a) (fun a _ _ => a) (fun a _ => a) 0
        [0] [1] [2] 3 [5, 6, 7] 0 1 2).1[2]? = ([5, 6, 7] : List ℕ)[2]?) :=
  ⟨by decide, by decide, by decide,
    nao_sub_heap_frame (fun v => v) (fun _ => 0) (fun v _ => v) (fun a _ => a)
      (fun v => v) (fun a _ => a) (fun a _ _ => a) (fun a _ _ => a) (fun a _ => a) 0
      [0] [1] [2] 3 [5, 6, 7] 0 1 2 (by decide) (by decide) (by decide)⟩

end PyscfNao
